import Mathlib

/-!
Verification of the concurrent terminal output manager and table renderer
of the backhub repository backup utility, as a shallow embedding.

The embedding follows `src/utils/manager.go` and `src/utils/table.go`.
Go maps are modelled as association lists with first-match lookup and
in-place replacement; `time.Now()` becomes an explicit `now : Nat`
argument to the operations that read the clock; Go `error` values are
modelled by their rendered message string.
-/

set_option autoImplicit false

namespace Backhub

/-! ### Association-list model of Go maps -/

def mapLookup {α : Type} : List (String × α) → String → Option α
  | [], _ => none
  | (k, v) :: rest, key => if k = key then some v else mapLookup rest key

def mapInsert {α : Type} : List (String × α) → String → α → List (String × α)
  | [], key, v => [(key, v)]
  | (k, v0) :: rest, key, v =>
    if k = key then (k, v) :: rest else (k, v0) :: mapInsert rest key v

def mapUpdate {α : Type} (f : α → α) : List (String × α) → String → List (String × α)
  | [], _ => []
  | (k, v) :: rest, key =>
    if k = key then (k, f v) :: rest else (k, v) :: mapUpdate f rest key

/-- The last `n` elements of a list, in order. -/
def takeLast {α : Type} (n : Nat) (xs : List α) : List α :=
  xs.drop (xs.length - n)

/-! ### Table (`src/utils/table.go`) -/

structure Table where
  Headers : List String
  Rows : List (List String)
deriving Repr, DecidableEq

def NewTable (headers : List String) : Table :=
  { Headers := headers, Rows := [] }

def Table.AddRow (t : Table) (row : List String) : Table :=
  { t with Rows := t.Rows ++ [row] }

/-! ### Task records and manager state (`src/utils/manager.go`) -/

structure FunctionOutput where
  Name : String
  Status : String
  Message : String
  StreamLines : List String
  Complete : Bool
  StartTime : Nat
  LastUpdated : Nat
  Error : Option String
  Tables : List (String × Table)
  Index : Nat
deriving Repr, DecidableEq

structure ErrorReport where
  FunctionName : String
  Error : String
  Time : Nat
deriving Repr, DecidableEq

structure Manager where
  outputs : List (String × FunctionOutput)
  maxStreams : Nat
  unlimitedOutput : Bool
  tables : List (String × Table)
  functionTables : List Table
  errors : List ErrorReport
  functionCount : Nat
deriving Repr, DecidableEq

/-- `NewManager` from manager.go: a non-positive bound falls back to 15. -/
def NewManager (maxStreams : Int) : Manager :=
  { outputs := []
    maxStreams := if maxStreams ≤ 0 then 15 else maxStreams.toNat
    unlimitedOutput := false
    tables := []
    functionTables := []
    errors := []
    functionCount := 0 }

def Manager.SetUnlimitedOutput (m : Manager) (unlimited : Bool) : Manager :=
  { m with unlimitedOutput := unlimited }

/-- `Register` from manager.go: bumps the function counter and stores a
fresh record under the name, replacing any prior record. -/
def Manager.Register (m : Manager) (name : String) (now : Nat) : Manager :=
  { m with
    functionCount := m.functionCount + 1
    outputs := mapInsert m.outputs name
      { Name := name
        Status := "pending"
        Message := ""
        StreamLines := []
        Complete := false
        StartTime := now
        LastUpdated := now
        Error := none
        Tables := []
        Index := m.functionCount + 1 } }

def Manager.SetMessage (m : Manager) (name message : String) (now : Nat) : Manager :=
  let f := fun info => { info with Message := message, LastUpdated := now }
  { m with outputs := mapUpdate f m.outputs name }

def Manager.SetStatus (m : Manager) (name status : String) (now : Nat) : Manager :=
  let f := fun info => { info with Status := status, LastUpdated := now }
  { m with outputs := mapUpdate f m.outputs name }

def Manager.GetStatus (m : Manager) (name : String) : String :=
  match mapLookup m.outputs name with
  | some info => info.Status
  | none => "unknown"

/-- `Complete` from manager.go: clears the stream lines unless unlimited
output is on, then marks the task complete with status success. -/
def Manager.Complete (m : Manager) (name : String) (now : Nat) : Manager :=
  let f := fun info =>
    { info with
      StreamLines := if m.unlimitedOutput then info.StreamLines else []
      Complete := true
      Status := "success"
      LastUpdated := now }
  { m with outputs := mapUpdate f m.outputs name }

/-- `ReportError` from manager.go: marks the task complete with status
error, formats the message, and appends to the global error log — all
only when the name is registered. -/
def Manager.ReportError (m : Manager) (name err : String) (now : Nat) : Manager :=
  let f := fun info =>
    { info with
      Complete := true
      Status := "error"
      Message := "Error: " ++ err
      Error := some err
      LastUpdated := now }
  match mapLookup m.outputs name with
  | some _ =>
    { m with
      outputs := mapUpdate f m.outputs name
      errors := m.errors ++ [{ FunctionName := name, Error := err, Time := now }] }
  | none => m

/-- The bounded branch of `UpdateStreamOutput` (manager.go lines 219-233):
append the new lines, keeping at most `maxStreams` by dropping from the
front, with the start-index clamp for oversized batches. -/
def goUpdateStream (maxStreams : Nat) (cur out : List String) : List String :=
  let currentLen := cur.length
  if currentLen + out.length > maxStreams then
    let startIndex0 := currentLen + out.length - maxStreams
    let startIndex := if startIndex0 > currentLen then 0 else startIndex0
    let newLines := cur.drop startIndex ++ out
    if newLines.length > maxStreams then
      newLines.drop (newLines.length - maxStreams)
    else newLines
  else cur ++ out

def Manager.UpdateStreamOutput (m : Manager) (name : String) (out : List String) (now : Nat) : Manager :=
  let f := fun info =>
    { info with
      StreamLines :=
        if m.unlimitedOutput then info.StreamLines ++ out
        else goUpdateStream m.maxStreams info.StreamLines out
      LastUpdated := now }
  { m with outputs := mapUpdate f m.outputs name }

def Manager.AddStreamLine (m : Manager) (name line : String) (now : Nat) : Manager :=
  m.UpdateStreamOutput name [line] now

/-! ### Display classification and summary (`updateDisplay`, `ShowSummary`) -/

inductive Bucket where
  | active
  | pending
  | completed
deriving Repr, DecidableEq

/-- The grouping rule of `updateDisplay` (manager.go lines 414-422). -/
def classify (info : FunctionOutput) : Bucket :=
  if info.Complete then Bucket.completed
  else if info.Status = "pending" ∧ info.Message = "" then Bucket.pending
  else Bucket.active

/-- The aggregate counts printed by `ShowSummary`:
(total operations, succeeded, failed). -/
def Manager.showSummaryCounts (m : Manager) : Nat × Nat × Nat :=
  let counts := m.outputs.foldl
    (fun (acc : Nat × Nat) p =>
      if p.2.Status = "success" then (acc.1 + 1, acc.2)
      else if p.2.Status = "error" then (acc.1, acc.2 + 1)
      else acc) (0, 0)
  (m.outputs.length, counts.1, counts.2)

/-! ### Sequences of mutating calls -/

/-- A fold of `UpdateStreamOutput` calls for one task. `AddStreamLine`
is `UpdateStreamOutput` with a singleton batch, so this also covers
arbitrary interleavings of the two on that task. -/
def applyStreamCalls (m : Manager) (name : String) (os : List (List String)) (now : Nat) : Manager :=
  os.foldl (fun acc o => acc.UpdateStreamOutput name o now) m

/-- The four non-terminal mutating calls of the manager API. -/
inductive MOp where
  | setMessage (name msg : String) (now : Nat)
  | setStatus (name status : String) (now : Nat)
  | updateStream (name : String) (out : List String) (now : Nat)
  | addLine (name line : String) (now : Nat)

def applyOp (m : Manager) : MOp → Manager
  | MOp.setMessage name msg now => m.SetMessage name msg now
  | MOp.setStatus name status now => m.SetStatus name status now
  | MOp.updateStream name out now => m.UpdateStreamOutput name out now
  | MOp.addLine name line now => m.AddStreamLine name line now

def applyOps (m : Manager) (ops : List MOp) : Manager :=
  ops.foldl applyOp m

/-- Registration indices never exceed the function counter. -/
def indexInvariant (m : Manager) : Prop :=
  ∀ p ∈ m.outputs, p.2.Index ≤ m.functionCount

/-! ### Markdown table rendering (`FormatMarkdownTable`, table.go) -/

/-- One pass of the column-width loop: widen each width to the cells of
one row, ignoring cells beyond the header count. -/
def updWidths : List Nat → List String → List Nat
  | ws, [] => ws
  | [], _ => []
  | w :: ws, cell :: cells => max w cell.length :: updWidths ws cells

/-- Per-column widths: header length, widened over all rows. -/
def Table.colWidths (t : Table) : List Nat :=
  t.Rows.foldl updWidths (t.Headers.map String.length)

/-- The content a cell contributes to its line: the Go format
string applied as a space, the cell left-justified in its column
width, and a space (the closing pipe is added per chunk). -/
def mdChunk (cell : String) (w : Nat) : List Char :=
  ' ' :: (cell.data ++ List.replicate (w - cell.length) ' ') ++ [' ']

def mdLineContent (chunks : List (List Char)) : List Char :=
  '|' :: (chunks.map (fun c => c ++ ['|'])).flatten

def mdLine (chunks : List (List Char)) : List Char :=
  mdLineContent chunks ++ ['\n']

/-- `FormatMarkdownTable` from table.go: header row, dashed divider
row, then one pipe row per data row; cells beyond the header count are
dropped; no wrapping. -/
def FormatMarkdownTable (t : Table) : String :=
  let ws := t.colWidths
  String.mk (mdLine (List.zipWith mdChunk t.Headers ws)
    ++ mdLine (ws.map (fun w => ' ' :: List.replicate w '-' ++ [' ']))
    ++ (t.Rows.map (fun r => mdLine (List.zipWith mdChunk r ws))).flatten)

/-! ### The spec's read-back procedure for Markdown tables -/

def isSpaceChar (c : Char) : Bool :=
  c == ' ' || c == '\t' || c == '\n' || c == '\r'

def trimChars (xs : List Char) : List Char :=
  ((xs.dropWhile isSpaceChar).reverse.dropWhile isSpaceChar).reverse

def splitOnChar (c : Char) : List Char → List (List Char)
  | [] => [[]]
  | x :: rest =>
    if x = c then [] :: splitOnChar c rest
    else
      match splitOnChar c rest with
      | [] => [[x]]
      | g :: gs => (x :: g) :: gs

/-- Split a line on pipes, discard the empty boundary fields produced
by the leading and trailing pipe, and trim each field. -/
def parseLine (l : List Char) : List String :=
  (((splitOnChar '|' l).drop 1).dropLast).map (fun f => String.mk (trimChars f))

/-- Split a rendered table on newlines (discarding the empty trailing
piece) and parse each line. -/
def parseMarkdown (s : String) : List (List String) :=
  ((splitOnChar '\n' s.data).dropLast).map parseLine

/-- A string survives the read-back: no pipe or newline inside it, and
no leading or trailing whitespace to be trimmed away. -/
def cleanCell (s : String) : Prop :=
  (∀ c ∈ s.data, c ≠ '|' ∧ c ≠ '\n') ∧
  s.data.dropWhile isSpaceChar = s.data ∧
  s.data.reverse.dropWhile isSpaceChar = s.data.reverse

/-! ### Console table column widths (`FormatTable`, table.go) -/

/-- The proportional-shrink loop body: each column width becomes
`max(int(math.Floor(ratio*availableWidth)), 3)`. The floating-point
value is abstracted by `approx i`, an arbitrary integer per column, so
the results below hold for every behaviour of the float arithmetic. -/
def shrinkLoop (approx : Nat → Int) : Nat → List Nat → List Int
  | _, [] => []
  | i, _ :: ws => max (approx i) 3 :: shrinkLoop approx (i + 1) ws

/-- The guard of the proportional-shrink branch of `FormatTable`:
the natural total width exceeds the terminal width, and the terminal
is wider than borders plus padding plus one character per column. -/
def shrinkApplies (t : Table) (termWidth : Nat) : Prop :=
  let ws := t.colWidths
  let n := ws.length
  (1 + n) + 2 * n + ws.sum > termWidth ∧ termWidth > (1 + n) + 2 * n + n

/-- The column widths `FormatTable` renders with, as integers (Go uses
`int`): the natural widths, shrunk when the guard holds. -/
def finalColWidths (t : Table) (termWidth : Nat) (approx : Nat → Int) : List Int :=
  let ws := t.colWidths
  let n := ws.length
  if (1 + n) + 2 * n + ws.sum > termWidth ∧ termWidth > (1 + n) + 2 * n + n then
    shrinkLoop approx 0 ws
  else ws.map Int.ofNat

/-- Every element of the list is at least `k`. -/
def allGE (k : Int) (l : List Int) : Prop :=
  ∀ w ∈ l, k ≤ w

/-! ### Lemmas: the map model -/

theorem mapLookup_mapUpdate_self {α : Type} (f : α → α) (l : List (String × α)) (k : String) :
    mapLookup (mapUpdate f l k) k = (mapLookup l k).map f := by
  induction l with
  | nil => rfl
  | cons p rest ih =>
    obtain ⟨k0, v0⟩ := p
    by_cases h : k0 = k <;> simp [mapUpdate, mapLookup, h, ih]

theorem mapUpdate_not_found {α : Type} (f : α → α) (l : List (String × α)) (k : String)
    (h : mapLookup l k = none) : mapUpdate f l k = l := by
  induction l with
  | nil => rfl
  | cons p rest ih =>
    obtain ⟨k0, v0⟩ := p
    by_cases hk : k0 = k
    · simp [mapLookup, hk] at h
    · simp only [mapLookup, if_neg hk] at h
      simp [mapUpdate, hk, ih h]

theorem mapLookup_mapInsert_self {α : Type} (l : List (String × α)) (k : String) (v : α) :
    mapLookup (mapInsert l k v) k = some v := by
  induction l with
  | nil => simp [mapInsert, mapLookup]
  | cons p rest ih =>
    obtain ⟨k0, v0⟩ := p
    by_cases hk : k0 = k <;> simp [mapInsert, mapLookup, hk, ih]

theorem mapLookup_mem {α : Type} {l : List (String × α)} {k : String} {v : α}
    (h : mapLookup l k = some v) : (k, v) ∈ l := by
  induction l with
  | nil => simp [mapLookup] at h
  | cons p rest ih =>
    obtain ⟨k0, v0⟩ := p
    by_cases hk : k0 = k
    · subst hk
      simp [mapLookup] at h
      subst h
      exact List.mem_cons_self ..
    · simp only [mapLookup, if_neg hk] at h
      exact List.mem_cons_of_mem _ (ih h)

/-! ### Lemmas: suffix extraction -/

theorem length_takeLast {α : Type} (n : Nat) (xs : List α) :
    (takeLast n xs).length ≤ n := by
  simp only [takeLast, List.length_drop]
  omega

theorem takeLast_eq_self {α : Type} {n : Nat} {xs : List α} (h : xs.length ≤ n) :
    takeLast n xs = xs := by
  simp [takeLast, Nat.sub_eq_zero_of_le h]

theorem takeLast_absorb {α : Type} (n : Nat) (xs ys : List α) :
    takeLast n (takeLast n xs ++ ys) = takeLast n (xs ++ ys) := by
  by_cases h : xs.length ≤ n
  · rw [takeLast_eq_self h]
  · unfold takeLast
    simp only [List.length_append, List.length_drop]
    have e1 : xs.length - (xs.length - n) + ys.length - n = ys.length := by omega
    rw [e1, ← List.drop_append_of_le_length (Nat.sub_le xs.length n), List.drop_drop]
    congr 1
    omega

/-- The bounded branch of `UpdateStreamOutput` keeps exactly the last
`maxStreams` lines of the old content followed by the new batch. -/
theorem goUpdateStream_eq_takeLast (B : Nat) (cur out : List String) :
    goUpdateStream B cur out = takeLast B (cur ++ out) := by
  unfold goUpdateStream takeLast
  by_cases h1 : cur.length + out.length > B
  · simp only [if_pos h1]
    by_cases h2 : cur.length + out.length - B > cur.length
    · have h3 : ((cur.drop 0) ++ out).length > B := by
        simp only [List.drop_zero, List.length_append]
        omega
      simp only [if_pos h2, if_pos h3, List.drop_zero, List.length_append]
      rw [if_pos h1]
    · have hd : cur.length + out.length - B ≤ cur.length := by omega
      have hlen : (cur.drop (cur.length + out.length - B) ++ out).length = B := by
        simp only [List.length_append, List.length_drop]
        omega
      have hng : ¬ (cur.drop (cur.length + out.length - B) ++ out).length > B := by
        rw [hlen]
        omega
      simp only [if_neg h2, if_neg hng]
      have e : (cur ++ out).length - B = cur.length + out.length - B := by
        simp [List.length_append]
      rw [e, List.drop_append_of_le_length hd]
  · simp only [if_neg h1]
    have e : (cur ++ out).length - B = 0 := by
      simp only [List.length_append]
      omega
    rw [e, List.drop_zero]

theorem mapLookup_mapUpdate_ne {α : Type} (f : α → α) (l : List (String × α)) {k k2 : String}
    (h : k ≠ k2) : mapLookup (mapUpdate f l k) k2 = mapLookup l k2 := by
  induction l with
  | nil => rfl
  | cons p rest ih =>
    obtain ⟨k0, v0⟩ := p
    by_cases hk : k0 = k
    · have hk2 : k0 ≠ k2 := by rw [hk]; exact h
      simp [mapUpdate, mapLookup, hk, hk2, h]
    · by_cases hk2 : k0 = k2 <;> simp [mapUpdate, mapLookup, hk, hk2, ih, Ne.symm h]

theorem mem_mapInsert {α : Type} {l : List (String × α)} {k : String} {v : α} {p : String × α} :
    p ∈ mapInsert l k v → p = (k, v) ∨ p ∈ l := by
  induction l with
  | nil => intro h; simpa [mapInsert] using h
  | cons q rest ih =>
    obtain ⟨k0, v0⟩ := q
    intro h
    by_cases hk : k0 = k
    · subst hk
      simp only [mapInsert, if_pos, List.mem_cons] at h
      rcases h with h1 | h1
      · exact Or.inl h1
      · exact Or.inr (List.mem_cons_of_mem _ h1)
    · simp only [mapInsert, if_neg hk, List.mem_cons] at h
      rcases h with h1 | h1
      · exact Or.inr (by simp [h1])
      · rcases ih h1 with h2 | h2
        · exact Or.inl h2
        · exact Or.inr (List.mem_cons_of_mem _ h2)

theorem mapUpdate_index_bound (f : FunctionOutput → FunctionOutput)
    (hf : ∀ i, (f i).Index = i.Index) (l : List (String × FunctionOutput)) (k : String) (c : Nat) :
    (∀ p ∈ l, p.2.Index ≤ c) → ∀ p ∈ mapUpdate f l k, p.2.Index ≤ c := by
  induction l with
  | nil => intro _; simp [mapUpdate]
  | cons q rest ih =>
    obtain ⟨k0, v0⟩ := q
    intro h p hp
    by_cases hk : k0 = k
    · simp only [mapUpdate, if_pos hk, List.mem_cons] at hp
      rcases hp with hp | hp
      · rw [hp]
        simpa [hf] using h (k0, v0) (by simp)
      · exact h p (by simp [hp])
    · simp only [mapUpdate, if_neg hk, List.mem_cons] at hp
      rcases hp with hp | hp
      · exact h p (by simp [hp])
      · exact ih (fun q hq => h q (by simp [hq])) p hp

/-- The registration-index invariant holds for a fresh manager. -/
theorem indexInvariant_newManager (n : Int) : indexInvariant (NewManager n) := by
  intro p hp
  simp [NewManager] at hp

/-- The registration-index invariant is preserved by every mutating
operation of the manager. -/
theorem indexInvariant_ops (m : Manager) (h : indexInvariant m) :
    (∀ name now, indexInvariant (m.Register name now)) ∧
    (∀ name msg now, indexInvariant (m.SetMessage name msg now)) ∧
    (∀ name status now, indexInvariant (m.SetStatus name status now)) ∧
    (∀ name now, indexInvariant (m.Complete name now)) ∧
    (∀ name err now, indexInvariant (m.ReportError name err now)) ∧
    (∀ name out now, indexInvariant (m.UpdateStreamOutput name out now)) := by
  refine ⟨?_, ?_, ?_, ?_, ?_, ?_⟩
  · intro name now p hp
    simp only [Manager.Register] at hp ⊢
    rcases mem_mapInsert hp with hp | hp
    · simp [hp]
    · have := h p hp
      omega
  · intro name msg now p hp
    simp only [Manager.SetMessage] at hp ⊢
    refine mapUpdate_index_bound _ ?_ m.outputs name m.functionCount h p hp
    intro i
    rfl
  · intro name status now p hp
    simp only [Manager.SetStatus] at hp ⊢
    refine mapUpdate_index_bound _ ?_ m.outputs name m.functionCount h p hp
    intro i
    rfl
  · intro name now p hp
    simp only [Manager.Complete] at hp ⊢
    refine mapUpdate_index_bound _ ?_ m.outputs name m.functionCount h p hp
    intro i
    rfl
  · intro name err now p hp
    cases hl : mapLookup m.outputs name with
    | some i =>
      simp only [Manager.ReportError, hl] at hp ⊢
      refine mapUpdate_index_bound _ ?_ m.outputs name m.functionCount h p hp
      intro i
      rfl
    | none =>
      simp only [Manager.ReportError, hl] at hp ⊢
      exact h p hp
  · intro name out now p hp
    simp only [Manager.UpdateStreamOutput] at hp ⊢
    refine mapUpdate_index_bound _ ?_ m.outputs name m.functionCount h p hp
    intro i
    rfl

/-! ### C1: bounded stream retention -/

/-- One `UpdateStreamOutput`-style fold step, as seen through lookup. -/
theorem applyStreamCalls_cons (m : Manager) (name : String) (o : List String)
    (os : List (List String)) (now : Nat) :
    applyStreamCalls m name (o :: os) now =
      applyStreamCalls (m.UpdateStreamOutput name o now) name os now := rfl

theorem applyStreamCalls_streamLines (os : List (List String)) (m : Manager) (name : String)
    (now : Nat) (info : FunctionOutput)
    (hu : m.unlimitedOutput = false)
    (hreg : mapLookup m.outputs name = some info)
    (hlen : info.StreamLines.length ≤ m.maxStreams) :
    ∃ info2, mapLookup (applyStreamCalls m name os now).outputs name = some info2 ∧
      info2.StreamLines = takeLast m.maxStreams (info.StreamLines ++ os.flatten) := by
  induction os generalizing m info with
  | nil =>
    refine ⟨info, hreg, ?_⟩
    rw [List.flatten_nil, List.append_nil, takeLast_eq_self hlen]
  | cons o rest ih =>
    have hl2 : mapLookup (m.UpdateStreamOutput name o now).outputs name = some
        { info with
          StreamLines := goUpdateStream m.maxStreams info.StreamLines o
          LastUpdated := now } := by
      simp [Manager.UpdateStreamOutput, mapLookup_mapUpdate_self, hreg, hu]
    have hlen2 : (goUpdateStream m.maxStreams info.StreamLines o).length ≤
        (m.UpdateStreamOutput name o now).maxStreams := by
      rw [goUpdateStream_eq_takeLast]
      exact length_takeLast ..
    obtain ⟨info2, hl3, hs⟩ := ih (m.UpdateStreamOutput name o now) _ hu hl2 hlen2
    refine ⟨info2, ?_, ?_⟩
    · rw [applyStreamCalls_cons]
      exact hl3
    · rw [hs]
      simp only [Manager.UpdateStreamOutput, goUpdateStream_eq_takeLast, List.flatten_cons]
      rw [takeLast_absorb, List.append_assoc]

/-- Claim C1: with unlimited-output off, after any sequence of
`UpdateStreamOutput`/`AddStreamLine` calls on a freshly registered task
the stored stream-line list is exactly the last `maxStreams` of all
appended lines in append order, so its length never exceeds the bound. -/
theorem stream_bound_invariant (m : Manager) (name : String) (os : List (List String))
    (now : Nat) (info : FunctionOutput)
    (hu : m.unlimitedOutput = false)
    (hreg : mapLookup m.outputs name = some info)
    (hfresh : info.StreamLines = []) :
    ∃ info2, mapLookup (applyStreamCalls m name os now).outputs name = some info2 ∧
      info2.StreamLines = takeLast m.maxStreams os.flatten ∧
      info2.StreamLines.length ≤ m.maxStreams := by
  obtain ⟨info2, hl, hs⟩ := applyStreamCalls_streamLines os m name now info hu hreg
    (by simp [hfresh])
  rw [hfresh, List.nil_append] at hs
  exact ⟨info2, hl, hs, by rw [hs]; exact length_takeLast ..⟩

/-- Witness for C1: bound 3, lines "1".."5" one at a time, stored list
["3","4","5"]. -/
theorem stream_bound_invariant_witness :
    ∃ info2, mapLookup (applyStreamCalls ((NewManager 3).Register "t" 0) "t"
        [["1"], ["2"], ["3"], ["4"], ["5"]] 1).outputs "t" = some info2 ∧
      info2.StreamLines = ["3", "4", "5"] ∧ info2.StreamLines.length ≤ 3 := by
  obtain ⟨i2, hl, hs, hb⟩ := stream_bound_invariant ((NewManager 3).Register "t" 0) "t"
    [["1"], ["2"], ["3"], ["4"], ["5"]] 1 _ rfl rfl rfl
  exact ⟨i2, hl, hs.trans (by decide), by rw [hs]; decide⟩

/-! ### C2: re-registration replaces the record -/

/-- Claim C2: a later `Register` of the same name stores a completely
fresh record (pending status, empty message, no stream lines, not
complete, empty table map) whose index strictly exceeds the index of
the record it replaces. -/
theorem register_replaces (m : Manager) (name : String) (now : Nat) (old : FunctionOutput)
    (hinv : indexInvariant m)
    (hold : mapLookup m.outputs name = some old) :
    mapLookup (m.Register name now).outputs name = some
      { Name := name, Status := "pending", Message := "", StreamLines := [],
        Complete := false, StartTime := now, LastUpdated := now, Error := none,
        Tables := [], Index := m.functionCount + 1 } ∧
    old.Index < m.functionCount + 1 := by
  constructor
  · simp [Manager.Register, mapLookup_mapInsert_self]
  · have h2 : old.Index ≤ m.functionCount := hinv (name, old) (mapLookup_mem hold)
    omega

/-- Witness for C2: register "a", set a message, register "a" again;
the stored record is fresh with a strictly larger index. -/
theorem register_replaces_witness :
    mapLookup ((((NewManager 15).Register "a" 0).SetMessage "a" "hi" 1).Register "a" 2).outputs "a"
      = some
      { Name := "a", Status := "pending", Message := "", StreamLines := [],
        Complete := false, StartTime := 2, LastUpdated := 2, Error := none,
        Tables := [], Index := 2 } ∧
    (1 : Nat) < 2 := by
  have h := register_replaces (((NewManager 15).Register "a" 0).SetMessage "a" "hi" 1) "a" 2
    { Name := "a", Status := "pending", Message := "hi", StreamLines := [],
      Complete := false, StartTime := 0, LastUpdated := 1, Error := none,
      Tables := [], Index := 1 }
    (by unfold indexInvariant; decide) (by decide)
  exact h

/-! ### C3: writes to a completed task are NOT ignored -/

/-- Counterexample to claim C3: after `Complete("a")` the task's message
is empty and the task is complete, yet `SetMessage("a","x")` changes the
stored message to "x" — the call is not a no-op. -/
theorem completed_writes_counterexample :
    (mapLookup ((((NewManager 15).Register "a" 0).Complete "a" 1).outputs) "a").map
        FunctionOutput.Complete = some true ∧
    (mapLookup ((((NewManager 15).Register "a" 0).Complete "a" 1).outputs) "a").map
        FunctionOutput.Message = some "" ∧
    (mapLookup (((((NewManager 15).Register "a" 0).Complete "a" 1).SetMessage "a" "x" 2).outputs)
        "a").map FunctionOutput.Message = some "x" := by
  decide

/-- Claim C3 as amended: `SetMessage`, `SetStatus`, `UpdateStreamOutput`
and `AddStreamLine` on an already-completed registered task are applied
exactly as on any other task — the implementation makes no completion
check — and none of them resets the completion flag. -/
theorem completed_writes_apply (m : Manager) (name : String) (info : FunctionOutput)
    (hreg : mapLookup m.outputs name = some info)
    (hc : info.Complete = true) :
    (∀ msg now, mapLookup (m.SetMessage name msg now).outputs name =
        some { info with Message := msg, LastUpdated := now } ∧
      ({ info with Message := msg, LastUpdated := now } : FunctionOutput).Complete = true) ∧
    (∀ status now, mapLookup (m.SetStatus name status now).outputs name =
        some { info with Status := status, LastUpdated := now } ∧
      ({ info with Status := status, LastUpdated := now } : FunctionOutput).Complete = true) ∧
    (∀ out now, mapLookup (m.UpdateStreamOutput name out now).outputs name =
        some { info with
          StreamLines :=
            if m.unlimitedOutput then info.StreamLines ++ out
            else goUpdateStream m.maxStreams info.StreamLines out
          LastUpdated := now } ∧
      ({ info with
          StreamLines :=
            if m.unlimitedOutput then info.StreamLines ++ out
            else goUpdateStream m.maxStreams info.StreamLines out
          LastUpdated := now } : FunctionOutput).Complete = true) ∧
    (∀ line now, m.AddStreamLine name line now = m.UpdateStreamOutput name [line] now) := by
  refine ⟨?_, ?_, ?_, fun line now => rfl⟩
  · intro msg now
    exact ⟨by simp [Manager.SetMessage, mapLookup_mapUpdate_self, hreg], by simpa using hc⟩
  · intro status now
    exact ⟨by simp [Manager.SetStatus, mapLookup_mapUpdate_self, hreg], by simpa using hc⟩
  · intro out now
    exact ⟨by simp [Manager.UpdateStreamOutput, mapLookup_mapUpdate_self, hreg], by simpa using hc⟩

/-- Witness for amended C3: a `SetMessage` after `Complete` stores the
new message while the record stays complete. -/
theorem completed_writes_apply_witness :
    mapLookup ((((NewManager 15).Register "a" 0).Complete "a" 1).SetMessage "a" "x" 2).outputs "a"
      = some
      { Name := "a", Status := "success", Message := "x", StreamLines := [],
        Complete := true, StartTime := 0, LastUpdated := 2, Error := none,
        Tables := [], Index := 1 } := by
  have h := completed_writes_apply (((NewManager 15).Register "a" 0).Complete "a" 1) "a"
    { Name := "a", Status := "success", Message := "", StreamLines := [],
      Complete := true, StartTime := 0, LastUpdated := 1, Error := none,
      Tables := [], Index := 1 } (by decide) rfl
  exact (h.1 "x" 2).1

/-! ### C4: completion fixes the display bucket -/

theorem applyOp_lookup_complete (m : Manager) (op : MOp) (name : String) (info : FunctionOutput)
    (h : mapLookup m.outputs name = some info) :
    ∃ info2, mapLookup (applyOp m op).outputs name = some info2 ∧
      info2.Complete = info.Complete := by
  have step : ∀ (f : FunctionOutput → FunctionOutput), (∀ i, (f i).Complete = i.Complete) →
      ∀ n2, ∃ info2, mapLookup (mapUpdate f m.outputs n2) name = some info2 ∧
        info2.Complete = info.Complete := by
    intro f hf n2
    by_cases hn : n2 = name
    · subst hn
      exact ⟨f info, by simp [mapLookup_mapUpdate_self, h], hf info⟩
    · exact ⟨info, by rw [mapLookup_mapUpdate_ne f _ hn]; exact h, rfl⟩
  cases op with
  | setMessage n2 msg now =>
    refine step _ ?_ n2
    intro i
    rfl
  | setStatus n2 status now =>
    refine step _ ?_ n2
    intro i
    rfl
  | updateStream n2 out now =>
    refine step _ ?_ n2
    intro i
    rfl
  | addLine n2 line now =>
    refine step _ ?_ n2
    intro i
    rfl

theorem applyOps_lookup_complete (ops : List MOp) (m : Manager) (name : String)
    (info : FunctionOutput) (h : mapLookup m.outputs name = some info) :
    ∃ info2, mapLookup (applyOps m ops).outputs name = some info2 ∧
      info2.Complete = info.Complete := by
  induction ops generalizing m info with
  | nil => exact ⟨info, h, rfl⟩
  | cons op rest ih =>
    obtain ⟨i1, h1, hc1⟩ := applyOp_lookup_complete m op name info h
    obtain ⟨i2, h2, hc2⟩ := ih (applyOp m op) i1 h1
    exact ⟨i2, h2, hc2.trans hc1⟩

/-- Claim C4: once `Complete` or `ReportError` has run on a registered
task, every later render classifies it into the completed bucket — never
active, never pending — no matter which further `SetMessage`,
`SetStatus`, `UpdateStreamOutput` or `AddStreamLine` calls occur. -/
theorem completed_bucket_stable (m : Manager) (name : String) (now : Nat) (ops : List MOp)
    (info : FunctionOutput) (hreg : mapLookup m.outputs name = some info) :
    (∃ i2, mapLookup (applyOps (m.Complete name now) ops).outputs name = some i2 ∧
      classify i2 = Bucket.completed ∧ classify i2 ≠ Bucket.active ∧
      classify i2 ≠ Bucket.pending) ∧
    (∀ err, ∃ i2, mapLookup (applyOps (m.ReportError name err now) ops).outputs name = some i2 ∧
      classify i2 = Bucket.completed ∧ classify i2 ≠ Bucket.active ∧
      classify i2 ≠ Bucket.pending) := by
  constructor
  · have hl : mapLookup (m.Complete name now).outputs name = some
        { info with
          StreamLines := if m.unlimitedOutput then info.StreamLines else []
          Complete := true
          Status := "success"
          LastUpdated := now } := by
      simp [Manager.Complete, mapLookup_mapUpdate_self, hreg]
    obtain ⟨i2, h2, hc2⟩ := applyOps_lookup_complete ops _ name _ hl
    have hcc : i2.Complete = true := hc2
    exact ⟨i2, h2, by simp [classify, hcc], by simp [classify, hcc], by simp [classify, hcc]⟩
  · intro err
    have hl : mapLookup (m.ReportError name err now).outputs name = some
        { info with
          Complete := true
          Status := "error"
          Message := "Error: " ++ err
          Error := some err
          LastUpdated := now } := by
      simp [Manager.ReportError, hreg, mapLookup_mapUpdate_self]
    obtain ⟨i2, h2, hc2⟩ := applyOps_lookup_complete ops _ name _ hl
    have hcc : i2.Complete = true := hc2
    exact ⟨i2, h2, by simp [classify, hcc], by simp [classify, hcc], by simp [classify, hcc]⟩

/-- Witness for C4: after `Complete("a")`, even resetting status to
"pending" and clearing the message leaves "a" in the completed bucket. -/
theorem completed_bucket_stable_witness :
    ∃ i2, mapLookup (applyOps (((NewManager 15).Register "a" 0).Complete "a" 1)
        [MOp.setStatus "a" "pending" 2, MOp.setMessage "a" "" 3]).outputs "a" = some i2 ∧
      classify i2 = Bucket.completed ∧ classify i2 ≠ Bucket.active ∧
      classify i2 ≠ Bucket.pending := by
  have h := completed_bucket_stable ((NewManager 15).Register "a" 0) "a" 1
    [MOp.setStatus "a" "pending" 2, MOp.setMessage "a" "" 3]
    { Name := "a", Status := "pending", Message := "", StreamLines := [],
      Complete := false, StartTime := 0, LastUpdated := 0, Error := none,
      Tables := [], Index := 1 } (by decide)
  exact h.1

/-! ### C5: Complete clears the stream lines, ReportError retains them -/

/-- Claim C5: `Complete` empties the task's stream lines exactly when
unlimited-output mode is off (and retains them in unlimited mode),
while `ReportError` never changes the stream lines in either mode. -/
theorem complete_clears_reportError_retains (m : Manager) (name : String) (now : Nat)
    (info : FunctionOutput) (hreg : mapLookup m.outputs name = some info) :
    (mapLookup (m.Complete name now).outputs name).map FunctionOutput.StreamLines =
      some (if m.unlimitedOutput then info.StreamLines else []) ∧
    ∀ err, (mapLookup (m.ReportError name err now).outputs name).map FunctionOutput.StreamLines =
      some info.StreamLines := by
  constructor
  · simp [Manager.Complete, mapLookup_mapUpdate_self, hreg]
  · intro err
    simp [Manager.ReportError, hreg, mapLookup_mapUpdate_self]

/-- Witness for C5: in bounded mode `Complete` empties the lines of a
task that had one stream line; `ReportError` keeps them. -/
theorem complete_clears_reportError_retains_witness :
    (mapLookup ((((NewManager 15).Register "a" 0).AddStreamLine "a" "l1" 1).Complete "a" 2).outputs
        "a").map FunctionOutput.StreamLines = some (if false then ["l1"] else []) ∧
    (mapLookup ((((NewManager 15).Register "a" 0).AddStreamLine "a" "l1" 1).ReportError "a" "e" 2).outputs
        "a").map FunctionOutput.StreamLines = some ["l1"] := by
  have h := complete_clears_reportError_retains
    (((NewManager 15).Register "a" 0).AddStreamLine "a" "l1" 1) "a" 2
    { Name := "a", Status := "pending", Message := "", StreamLines := ["l1"],
      Complete := false, StartTime := 0, LastUpdated := 1, Error := none,
      Tables := [], Index := 1 } (by decide)
  exact ⟨h.1, h.2 "e"⟩

/-! ### C6: unknown names are silently ignored -/

/-- Claim C6: every mutating call with an unregistered name returns the
manager completely unchanged — task records, error list and tables. -/
theorem unknown_name_noop (m : Manager) (name : String)
    (h : mapLookup m.outputs name = none) :
    (∀ msg now, m.SetMessage name msg now = m) ∧
    (∀ status now, m.SetStatus name status now = m) ∧
    (∀ now, m.Complete name now = m) ∧
    (∀ err now, m.ReportError name err now = m) ∧
    (∀ out now, m.UpdateStreamOutput name out now = m) ∧
    (∀ line now, m.AddStreamLine name line now = m) := by
  have h5 : ∀ out now, m.UpdateStreamOutput name out now = m := by
    intro out now
    show { m with outputs := mapUpdate _ m.outputs name } = m
    rw [mapUpdate_not_found _ _ _ h]
  refine ⟨?_, ?_, ?_, ?_, h5, fun line now => h5 [line] now⟩
  · intro msg now
    show { m with outputs := mapUpdate _ m.outputs name } = m
    rw [mapUpdate_not_found _ _ _ h]
  · intro status now
    show { m with outputs := mapUpdate _ m.outputs name } = m
    rw [mapUpdate_not_found _ _ _ h]
  · intro now
    show { m with outputs := mapUpdate _ m.outputs name } = m
    rw [mapUpdate_not_found _ _ _ h]
  · intro err now
    simp [Manager.ReportError, h]

/-- Witness for C6: on a manager that only knows "a", calls for "x" are
identity. -/
theorem unknown_name_noop_witness :
    ((NewManager 15).Register "a" 0).SetMessage "x" "hello" 1 = (NewManager 15).Register "a" 0 ∧
    ((NewManager 15).Register "a" 0).ReportError "x" "boom" 1 = (NewManager 15).Register "a" 0 := by
  have h := unknown_name_noop ((NewManager 15).Register "a" 0) "x" (by decide)
  exact ⟨h.1 "hello" 1, h.2.2.2.1 "boom" 1⟩

/-! ### C7: summary counts scenario -/

/-- Claim C7: register "a","b","c"; error "boom" on "b"; complete "a"
and "c"; the summary reports total 3, succeeded 2, failed 1. -/
theorem showSummary_scenario :
    (((((((NewManager 15).Register "a" 0).Register "b" 1).Register "c" 2).ReportError
        "b" "boom" 3).Complete "a" 4).Complete "c" 5).showSummaryCounts = (3, 2, 1) := by
  decide

/-! ### C10: GetStatus on unknown and known names -/

/-- Claim C10: `GetStatus` returns "unknown" exactly for unregistered
names and the task's stored status for registered ones. -/
theorem getStatus_spec (m : Manager) (name : String) :
    (mapLookup m.outputs name = none → m.GetStatus name = "unknown") ∧
    (∀ info, mapLookup m.outputs name = some info → m.GetStatus name = info.Status) := by
  constructor
  · intro h
    simp [Manager.GetStatus, h]
  · intro info h
    simp [Manager.GetStatus, h]

/-- Witness for C10: unknown name gives "unknown"; a registered task
gives its current status. -/
theorem getStatus_spec_witness :
    (NewManager 15).GetStatus "x" = "unknown" ∧
    (((NewManager 15).Register "a" 0).SetStatus "a" "cloning" 1).GetStatus "a" = "cloning" := by
  constructor
  · exact (getStatus_spec (NewManager 15) "x").1 rfl
  · exact (getStatus_spec (((NewManager 15).Register "a" 0).SetStatus "a" "cloning" 1) "a").2
      { Name := "a", Status := "cloning", Message := "", StreamLines := [],
        Complete := false, StartTime := 0, LastUpdated := 1, Error := none,
        Tables := [], Index := 1 } (by decide)

/-! ### C9: console-table column widths are never negative -/

theorem shrinkLoop_ge (approx : Nat → Int) (i : Nat) (ws : List Nat) :
    ∀ w ∈ shrinkLoop approx i ws, 3 ≤ w := by
  induction ws generalizing i with
  | nil => simp [shrinkLoop]
  | cons w0 rest ih =>
    intro w hw
    simp only [shrinkLoop, List.mem_cons] at hw
    rcases hw with h1 | h1
    · rw [h1]
      exact le_max_right ..
    · exact ih (i + 1) w h1

/-- Claim C9: `FormatTable` never computes a negative column width, for
every table, terminal width, and every possible outcome of the
floating-point ratio arithmetic (abstracted by `approx`); and whenever
the proportional-shrink branch applies, every resulting width is at
least 3. Border drawing repeats `width + 2` horizontal characters, so
no negative repeat count can reach it. -/
theorem formatTable_widths_safe (t : Table) (termWidth : Nat) (approx : Nat → Int) :
    allGE 0 (finalColWidths t termWidth approx) ∧
    (shrinkApplies t termWidth → allGE 3 (finalColWidths t termWidth approx)) := by
  by_cases hc : shrinkApplies t termWidth
  · simp only [shrinkApplies] at hc
    have he : finalColWidths t termWidth approx = shrinkLoop approx 0 t.colWidths := by
      simp only [finalColWidths]
      rw [if_pos hc]
    constructor
    · intro w hw
      rw [he] at hw
      have := shrinkLoop_ge approx 0 t.colWidths w hw
      omega
    · intro _ w hw
      rw [he] at hw
      exact shrinkLoop_ge approx 0 t.colWidths w hw
  · have hc2 := hc
    simp only [shrinkApplies] at hc2
    have he : finalColWidths t termWidth approx = t.colWidths.map Int.ofNat := by
      simp only [finalColWidths]
      rw [if_neg hc2]
    constructor
    · intro w hw
      rw [he] at hw
      simp only [List.mem_map] at hw
      obtain ⟨n, _, hn⟩ := hw
      subst hn
      exact Int.ofNat_zero_le n
    · intro hs
      exact absurd hs hc

/-- Witness for C9: one 30-character header, terminal width 10, and an
adversarially negative float outcome: the shrink branch applies and the
rendered width is still at least 3. -/
theorem formatTable_widths_safe_witness :
    allGE 3 (finalColWidths { Headers := ["aaaaaaaaaaaaaaaaaaaaaaaaaaaaaa"], Rows := [] } 10
      (fun _ => -7)) :=
  (formatTable_widths_safe { Headers := ["aaaaaaaaaaaaaaaaaaaaaaaaaaaaaa"], Rows := [] } 10
      (fun _ => -7)).2 (by unfold shrinkApplies; decide)

/-! ### C8: Markdown round-trip -/

theorem splitOnChar_cons_self (c : Char) (rest : List Char) :
    splitOnChar c (c :: rest) = [] :: splitOnChar c rest := by
  simp [splitOnChar]

theorem splitOnChar_append_cons {c : Char} {xs : List Char} (h : c ∉ xs) (ys : List Char) :
    splitOnChar c (xs ++ c :: ys) = xs :: splitOnChar c ys := by
  induction xs with
  | nil => simp [splitOnChar]
  | cons x rest ih =>
    have hx : ¬ x = c := fun he => h (by simp [he])
    have hr : c ∉ rest := fun hm => h (by simp [hm])
    simp only [List.cons_append, splitOnChar, if_neg hx, List.append_eq, ih hr]

theorem splitOnChar_chunks {c : Char} (chunks : List (List Char))
    (h : ∀ ch ∈ chunks, c ∉ ch) :
    splitOnChar c ((chunks.map (fun ch => ch ++ [c])).flatten) = chunks ++ [[]] := by
  induction chunks with
  | nil => rfl
  | cons ch rest ih =>
    have h1 : c ∉ ch := h ch (by simp)
    have h2 : ∀ x ∈ rest, c ∉ x := fun x hx => h x (by simp [hx])
    simp only [List.map_cons, List.flatten_cons]
    rw [List.append_assoc, List.singleton_append, splitOnChar_append_cons h1, ih h2]
    rfl

theorem isSpaceChar_space : isSpaceChar ' ' = true := rfl

theorem dropWhile_replicate_space (m : Nat) (ys : List Char) :
    (List.replicate m ' ' ++ ys).dropWhile isSpaceChar = ys.dropWhile isSpaceChar := by
  induction m with
  | zero => simp
  | succ k ih =>
    rw [List.replicate_succ, List.cons_append, List.dropWhile_cons, isSpaceChar_space]
    simpa using ih

theorem dropWhile_clean_append {s : List Char} (hs : s ≠ [])
    (h1 : s.dropWhile isSpaceChar = s) (ys : List Char) :
    (s ++ ys).dropWhile isSpaceChar = s ++ ys := by
  cases s with
  | nil => exact absurd rfl hs
  | cons a t =>
    have ha : isSpaceChar a = false := by
      rw [List.dropWhile_cons] at h1
      by_cases hx : isSpaceChar a = true
      · rw [if_pos hx] at h1
        have hlen : (t.dropWhile isSpaceChar).length ≤ t.length :=
          (List.dropWhile_sublist _).length_le
        rw [h1] at hlen
        simp at hlen
      · simpa using hx
    rw [List.cons_append, List.dropWhile_cons, ha]
    simp

/-- Trimming a rendered cell chunk recovers the raw cell text, for any
column width, as long as the cell itself has no surrounding whitespace. -/
theorem trimChars_mdChunk (cell : String) (w : Nat)
    (h1 : cell.data.dropWhile isSpaceChar = cell.data)
    (h2 : cell.data.reverse.dropWhile isSpaceChar = cell.data.reverse) :
    trimChars (mdChunk cell w) = cell.data := by
  have e : mdChunk cell w =
      ' ' :: (cell.data ++ List.replicate (w - cell.length + 1) ' ') := by
    simp [mdChunk, List.replicate_succ' , List.append_assoc]
  rw [e]
  unfold trimChars
  rw [List.dropWhile_cons, isSpaceChar_space, if_pos rfl]
  cases hd : cell.data with
  | nil =>
    have h0 := dropWhile_replicate_space (w - cell.length + 1) ([] : List Char)
    rw [List.append_nil, List.dropWhile_nil] at h0
    rw [List.nil_append, h0]
    rfl
  | cons a t =>
    rw [← hd]
    rw [dropWhile_clean_append (by rw [hd]; simp) h1]
    rw [List.reverse_append, List.reverse_replicate, dropWhile_replicate_space, h2,
      List.reverse_reverse]

theorem parseLine_mdLineContent (chunks : List (List Char))
    (h : ∀ ch ∈ chunks, '|' ∉ ch) :
    parseLine (mdLineContent chunks) = chunks.map (fun ch => String.mk (trimChars ch)) := by
  unfold parseLine mdLineContent
  rw [splitOnChar_cons_self, splitOnChar_chunks chunks h]
  simp only [List.drop_succ_cons, List.drop_zero, List.dropLast_concat]

theorem pipe_not_mem_mdChunk (cell : String) (w : Nat)
    (h : ∀ c ∈ cell.data, c ≠ '|' ∧ c ≠ '\n') : '|' ∉ mdChunk cell w := by
  intro hm
  simp only [mdChunk, List.cons_append, List.mem_cons, List.mem_append,
    List.mem_replicate] at hm
  rcases hm with hm | (hm | ⟨-, hm⟩) | hm
  · exact absurd hm (by decide)
  · exact absurd hm (fun hmem => (h '|' hmem).1 rfl)
  · exact absurd hm (by decide)
  · exact absurd hm (by decide)

theorem newline_not_mem_mdChunk (cell : String) (w : Nat)
    (h : ∀ c ∈ cell.data, c ≠ '|' ∧ c ≠ '\n') : '\n' ∉ mdChunk cell w := by
  intro hm
  simp only [mdChunk, List.cons_append, List.mem_cons, List.mem_append,
    List.mem_replicate] at hm
  rcases hm with hm | (hm | ⟨-, hm⟩) | hm
  · exact absurd hm (by decide)
  · exact absurd hm (fun hmem => (h '\n' hmem).2 rfl)
  · exact absurd hm (by decide)
  · exact absurd hm (by decide)

theorem newline_not_mem_dividerChunk (w : Nat) :
    '\n' ∉ (' ' :: List.replicate w '-' ++ [' '] : List Char) := by
  intro hm
  simp only [List.cons_append, List.mem_cons, List.mem_append, List.mem_replicate] at hm
  rcases hm with hm | (⟨-, hm⟩ | hm)
  · exact absurd hm (by decide)
  · exact absurd hm (by decide)
  · exact absurd hm (by decide)

theorem newline_not_mem_mdLineContent (chunks : List (List Char))
    (h : ∀ ch ∈ chunks, '\n' ∉ ch) : '\n' ∉ mdLineContent chunks := by
  intro hm
  simp only [mdLineContent, List.mem_cons, List.mem_flatten, List.mem_map] at hm
  rcases hm with hm | ⟨piece, ⟨ch, hch, he⟩, hmem⟩
  · exact absurd hm (by decide)
  · rw [← he] at hmem
    simp only [List.mem_append, List.mem_singleton] at hmem
    rcases hmem with hmem | hmem
    · exact absurd hmem (h ch hch)
    · exact absurd hmem (by decide)

theorem map_trim_zipWith (cells : List String) (ws : List Nat)
    (hlen : cells.length ≤ ws.length)
    (hcln : ∀ cell ∈ cells, cleanCell cell) :
    (List.zipWith mdChunk cells ws).map (fun ch => String.mk (trimChars ch)) = cells := by
  induction cells generalizing ws with
  | nil => simp
  | cons cell rest ih =>
    cases ws with
    | nil => simp at hlen
    | cons w wt =>
      have hc := hcln cell (by simp)
      simp only [List.zipWith_cons_cons, List.map_cons]
      rw [trimChars_mdChunk cell w hc.2.1 hc.2.2,
        ih wt (by simpa using hlen) (fun c hc2 => hcln c (by simp [hc2]))]

theorem updWidths_length (ws : List Nat) (cells : List String) :
    (updWidths ws cells).length = ws.length := by
  induction ws generalizing cells with
  | nil => cases cells <;> rfl
  | cons w wt ih =>
    cases cells with
    | nil => rfl
    | cons c ct => simp [updWidths, ih]

theorem colWidths_length (t : Table) : t.colWidths.length = t.Headers.length := by
  unfold Table.colWidths
  have h : ∀ (rows : List (List String)) (init : List Nat),
      (rows.foldl updWidths init).length = init.length := by
    intro rows
    induction rows with
    | nil => intro init; rfl
    | cons r rest ih =>
      intro init
      rw [List.foldl_cons, ih, updWidths_length]
  rw [h t.Rows (t.Headers.map String.length), List.length_map]

theorem map_id_of_mem {α : Type} {l : List α} {f : α → α} (h : ∀ x ∈ l, f x = x) :
    l.map f = l := by
  induction l with
  | nil => rfl
  | cons a rest ih => simp [h a (by simp), ih (fun x hx => h x (by simp [hx]))]

theorem mem_zipWith_mdChunk {cells : List String} {ws : List Nat} {ch : List Char}
    (hch : ch ∈ List.zipWith mdChunk cells ws) :
    ∃ cell ∈ cells, ∃ w, ch = mdChunk cell w := by
  induction cells generalizing ws with
  | nil => simp at hch
  | cons c ct ih =>
    cases ws with
    | nil => simp at hch
    | cons w wt =>
      simp only [List.zipWith_cons_cons, List.mem_cons] at hch
      rcases hch with hch | hch
      · exact ⟨c, by simp, w, hch⟩
      · obtain ⟨cell, hmem, w2, he⟩ := ih hch
        exact ⟨cell, by simp [hmem], w2, he⟩

/-- The rendered table, split on newlines, is exactly the header line,
the divider line, and one line per row, plus the empty trailing piece. -/
theorem splitLines_formatMarkdown (t : Table)
    (hheads : ∀ h ∈ t.Headers, cleanCell h)
    (hrows : ∀ r ∈ t.Rows, ∀ c ∈ r, cleanCell c) :
    splitOnChar '\n' (FormatMarkdownTable t).data =
      (mdLineContent (List.zipWith mdChunk t.Headers t.colWidths) ::
       mdLineContent (t.colWidths.map (fun w => ' ' :: List.replicate w '-' ++ [' '])) ::
       t.Rows.map (fun r => mdLineContent (List.zipWith mdChunk r t.colWidths))) ++ [[]] := by
  have hzip : ∀ (cells : List String), (∀ c ∈ cells, cleanCell c) →
      ∀ ch ∈ List.zipWith mdChunk cells t.colWidths, '\n' ∉ ch := by
    intro cells hcells ch hch
    obtain ⟨cell, hcm, w, he⟩ := mem_zipWith_mdChunk hch
    rw [he]
    exact newline_not_mem_mdChunk cell w (hcells cell hcm).1
  have hdoc : (FormatMarkdownTable t).data =
      ((mdLineContent (List.zipWith mdChunk t.Headers t.colWidths) ::
        mdLineContent (t.colWidths.map (fun w => ' ' :: List.replicate w '-' ++ [' '])) ::
        t.Rows.map (fun r => mdLineContent (List.zipWith mdChunk r t.colWidths))).map
          (fun l => l ++ ['\n'])).flatten := by
    simp only [FormatMarkdownTable, mdLine, List.map_cons, List.flatten_cons, List.map_map,
      Function.comp, List.append_assoc]
    rfl
  rw [hdoc, splitOnChar_chunks]
  intro l hl
  simp only [List.mem_cons, List.mem_map] at hl
  rcases hl with hl | hl | ⟨r, hr, hl⟩
  · rw [hl]
    exact newline_not_mem_mdLineContent _ (hzip t.Headers hheads)
  · rw [hl]
    apply newline_not_mem_mdLineContent
    intro ch hch
    simp only [List.mem_map] at hch
    obtain ⟨w, _, hw⟩ := hch
    rw [← hw]
    exact newline_not_mem_dividerChunk w
  · rw [← hl]
    exact newline_not_mem_mdLineContent _ (hzip r (hrows r hr))

/-- Claim C8 as amended: for every table whose headers and cells contain
no pipe and no newline characters and carry no surrounding whitespace,
and whose rows are no longer than the header list, parsing the rendered
Markdown table back (split each line on pipes, trim each field) recovers
the headers and every row exactly. -/
theorem markdown_roundtrip (t : Table)
    (hheads : ∀ h ∈ t.Headers, cleanCell h)
    (hrows : ∀ r ∈ t.Rows, r.length ≤ t.Headers.length ∧ ∀ c ∈ r, cleanCell c) :
    (parseMarkdown (FormatMarkdownTable t)).head? = some t.Headers ∧
    (parseMarkdown (FormatMarkdownTable t)).drop 2 = t.Rows := by
  have hpipe : ∀ (cells : List String), (∀ c ∈ cells, cleanCell c) →
      ∀ ch ∈ List.zipWith mdChunk cells t.colWidths, '|' ∉ ch := by
    intro cells hcells ch hch
    obtain ⟨cell, hcm, w, he⟩ := mem_zipWith_mdChunk hch
    rw [he]
    exact pipe_not_mem_mdChunk cell w (hcells cell hcm).1
  have hsplit := splitLines_formatMarkdown t hheads (fun r hr => (hrows r hr).2)
  have hparse : parseMarkdown (FormatMarkdownTable t) =
      parseLine (mdLineContent (List.zipWith mdChunk t.Headers t.colWidths)) ::
      parseLine (mdLineContent (t.colWidths.map (fun w => ' ' :: List.replicate w '-' ++ [' ']))) ::
      (t.Rows.map (fun r => mdLineContent (List.zipWith mdChunk r t.colWidths))).map parseLine := by
    unfold parseMarkdown
    rw [hsplit, List.dropLast_concat]
    rfl
  have hhead : parseLine (mdLineContent (List.zipWith mdChunk t.Headers t.colWidths)) =
      t.Headers := by
    rw [parseLine_mdLineContent _ (hpipe t.Headers hheads),
      map_trim_zipWith t.Headers t.colWidths (by rw [colWidths_length]) hheads]
  constructor
  · rw [hparse, hhead]
    rfl
  · rw [hparse]
    simp only [List.drop_succ_cons, List.drop_zero, List.map_map]
    apply map_id_of_mem
    intro r hr
    simp only [Function.comp_apply]
    rw [parseLine_mdLineContent _ (hpipe r (hrows r hr).2),
      map_trim_zipWith r t.colWidths (by rw [colWidths_length]; exact (hrows r hr).1)
        (hrows r hr).2]

/-- Counterexample to claim C8 as stated: a header containing a pipe
character is split apart by the read-back and is not recovered. -/
theorem markdown_roundtrip_counterexample :
    (parseMarkdown (FormatMarkdownTable { Headers := ["a|b"], Rows := [] })).head? ≠
      some ["a|b"] := by
  decide

/-- Witness for amended C8: a two-column table with two rows (one cell
empty, one row shorter in content) round-trips exactly. -/
theorem markdown_roundtrip_witness :
    (parseMarkdown (FormatMarkdownTable
        { Headers := ["h1", "h2"], Rows := [["a", "bb"], ["c", ""]] })).head?
      = some ["h1", "h2"] ∧
    (parseMarkdown (FormatMarkdownTable
        { Headers := ["h1", "h2"], Rows := [["a", "bb"], ["c", ""]] })).drop 2
      = [["a", "bb"], ["c", ""]] :=
  markdown_roundtrip { Headers := ["h1", "h2"], Rows := [["a", "bb"], ["c", ""]] }
    (by simp only [cleanCell]; decide) (by simp only [cleanCell]; decide)

end Backhub
